import Mathlib

/-!
# Verification of the ioBroker GitHub scanner

Shallow embedding of the `watch-github` repository scanner scripts
(the partitioned scanner variant and, where a claim reaches it, the
earlier non-partitioned variant) together with proofs about the
Query Planner, Paginated Fetcher, Adaptive Subdivider, Match Filter
and Repository Ledger.

Modelling conventions:
* JavaScript strings are modelled as Lean `String`; character-level
  operations (`toLowerCase`, `startsWith`, `split`, `substring`) are
  carried out on `String.data` (the list of characters), which matches
  the JavaScript semantics for the ASCII data handled by the scanner.
* `async` functions performing network calls are modelled as pure
  functions over an explicit environment (oracle) describing the
  responses of the external API; thrown errors become `Except` values.
* The bounded `while` loops of the fetcher are modelled by structural
  recursion on the number of remaining pages.
-/

namespace WatchGithub

/-! ## JS string primitives (character-list semantics) -/

/-- JS `String.prototype.toLowerCase` on the character list (ASCII). -/
def jsLower (l : List Char) : List Char := l.map Char.toLower

/-- JS `String.prototype.trim` for the whitespace occurring in the
scanner's query strings (plain spaces): drops leading and trailing
spaces. -/
def jsTrim (s : String) : String :=
  ⟨((s.data.dropWhile (fun c => c = ' ')).reverse.dropWhile (fun c => c = ' ')).reverse⟩

/-- JS `String.prototype.split(sep)` for a single-character separator.
`splitChar c l` returns the list of maximal `c`-free segments, keeping
empty segments exactly as JavaScript does. -/
def splitChar (c : Char) : List Char → List (List Char)
  | [] => [[]]
  | x :: xs =>
    if x = c then
      [] :: splitChar c xs
    else
      match splitChar c xs with
      | [] => [[x]]
      | y :: ys => (x :: y) :: ys

/-- `splitChar` never returns an empty list of segments. -/
theorem splitChar_ne_nil (c : Char) (l : List Char) : splitChar c l ≠ [] := by
  induction l with
  | nil => simp [splitChar]
  | cons x xs ih =>
    simp only [splitChar]
    split
    · simp
    · cases h : splitChar c xs with
      | nil => exact absurd h ih
      | cons y ys => simp

/-- A separator-free list splits into itself. -/
theorem splitChar_of_not_mem {c : Char} {l : List Char} (h : c ∉ l) :
    splitChar c l = [l] := by
  induction l with
  | nil => rfl
  | cons x xs ih =>
    simp only [List.mem_cons, not_or] at h
    simp only [splitChar]
    rw [if_neg (fun hx => h.1 hx.symm), ih h.2]

/-- Splitting at the first separator: the part before the separator
becomes the first segment. -/
theorem splitChar_append_sep {c : Char} {pre post : List Char} (h : c ∉ pre) :
    splitChar c (pre ++ c :: post) = pre :: splitChar c post := by
  induction pre with
  | nil => simp [splitChar]
  | cons x xs ih =>
    simp only [List.mem_cons, not_or] at h
    simp only [List.cons_append, splitChar]
    rw [if_neg (fun hx => h.1 hx.symm),
      show xs.append (c :: post) = xs ++ c :: post from rfl, ih h.2]

/-- The head segment of a split is the maximal separator-free prefix. -/
theorem splitChar_head (c : Char) (l : List Char) :
    (splitChar c l).headD [] = l.takeWhile (fun x => x ≠ c) := by
  induction l with
  | nil => rfl
  | cons x xs ih =>
    simp only [splitChar, List.takeWhile]
    by_cases hx : x = c
    · subst hx
      simp
    · rw [if_neg hx]
      have hd : decide (x ≠ c) = true := by simpa using hx
      rw [hd]
      cases hs : splitChar c xs with
      | nil => exact absurd hs (splitChar_ne_nil c xs)
      | cons y ys =>
        simp only [List.headD_cons]
        have := ih
        rw [hs] at this
        simpa [this]

/-! ## Match Filter (strict variant) and adapter-name extraction -/

/-- Embedding of `matchesIoBrokerPattern` (partitioned scanner):
`const name = repoName.toLowerCase();
 return name.startsWith('iobroker.') && name.length > 9;` -/
def matchesIoBrokerPattern (repoName : String) : Bool :=
  let name := jsLower repoName.data
  "iobroker.".data.isPrefixOf name && name.length > 9

/-- Embedding of `extractAdapterName`:
`const repoName = fullName.split('/')[1] || '';
 if (repoName.toLowerCase().startsWith('iobroker.')) return repoName.substring(9);
 return repoName;` -/
def extractAdapterName (fullName : String) : String :=
  let repoName := ((splitChar '/' fullName.data).drop 1).headD []
  if "iobroker.".data.isPrefixOf (jsLower repoName) then
    ⟨repoName.drop 9⟩
  else
    ⟨repoName⟩

/-- **C5.** The strict Match Filter accepts a name exactly when its
lower-cased form is `"iobroker."` followed by at least one character;
`"iobroker"` alone is rejected, `"iobroker.hue"` and `"IOBROKER.Hue"`
are accepted, and `"myiobroker.foo"` is rejected. -/
theorem c5_matchesIoBrokerPattern_characterization :
    (∀ s : String, matchesIoBrokerPattern s = true ↔
      ∃ t : List Char, t ≠ [] ∧ jsLower s.data = "iobroker.".data ++ t) ∧
    matchesIoBrokerPattern "iobroker" = false ∧
    matchesIoBrokerPattern "iobroker.hue" = true ∧
    matchesIoBrokerPattern "IOBROKER.Hue" = true ∧
    matchesIoBrokerPattern "myiobroker.foo" = false := by
  refine ⟨fun s => ?_, by decide, by decide, by decide, by decide⟩
  unfold matchesIoBrokerPattern
  simp only [Bool.and_eq_true, List.isPrefixOf_iff_prefix, decide_eq_true_eq,
    List.prefix_iff_eq_append]
  constructor
  · rintro ⟨hpre, hlen⟩
    refine ⟨(jsLower s.data).drop "iobroker.".data.length, ?_, hpre.symm⟩
    intro hnil
    rw [← hpre, List.length_append, hnil] at hlen
    have h9 : ("iobroker.".data).length = 9 := by decide
    rw [h9] at hlen
    simp at hlen
  · rintro ⟨t, hne, ht⟩
    have h9 : ("iobroker.".data).length = 9 := by decide
    constructor
    · rw [ht, List.drop_left]
    · rw [ht, List.length_append, h9]
      have : 0 < t.length := List.length_pos.mpr hne
      omega

/-- **C10.** `extractAdapterName` takes the segment after the first `/`
(up to the next `/`); if that segment starts case-insensitively with
`"iobroker."` the first nine characters are dropped, otherwise the
segment is returned unchanged; with no `/` present the result is
empty. -/
theorem c10_extractAdapterName_characterization :
    ∀ s : String,
      (('/' : Char) ∉ s.data → extractAdapterName s = "") ∧
      (∀ pre post : List Char, s.data = pre ++ '/' :: post → ('/' : Char) ∉ pre →
        extractAdapterName s =
          (let seg := post.takeWhile (fun x => x ≠ '/')
           if "iobroker.".data.isPrefixOf (jsLower seg) then ⟨seg.drop 9⟩ else ⟨seg⟩)) := by
  intro s
  constructor
  · intro h
    unfold extractAdapterName
    rw [splitChar_of_not_mem h]
    simp [jsLower]
  · intro pre post hdecomp hpre
    unfold extractAdapterName
    rw [hdecomp, splitChar_append_sep hpre]
    simp only [List.drop_succ_cons, List.drop_zero, splitChar_head]

/-! ## Query Planner (partitioned scanner `getSearchStrategies`) -/

/-- Scanner configuration drawn from the environment variables
`SEARCH_QUERY` and `ADDITIONAL_QUALIFIERS` (with the source defaults). -/
structure ScanConfig where
  baseQuery : String := "iobroker in:name"
  additionalQualifiers : String := ""
deriving Repr, DecidableEq

/-- One fork/archive search configuration (source lines 277-281). -/
structure SearchConfig where
  forkQualifier : String
  archivedQualifier : String
  description : String
deriving Repr, DecidableEq

/-- The three fork/archive partitions of the partitioned scanner:
non-archived non-forked, non-archived forked, and archived
(the source comment notes the archived partition is meant to cover
both forked and non-forked repositories). -/
def configNonArchivedNonForked : SearchConfig :=
  ⟨"fork:false", "archived:false", "non-archived non-forked"⟩

def configNonArchivedForked : SearchConfig :=
  ⟨"fork:true", "archived:false", "non-archived forked"⟩

def configArchived : SearchConfig :=
  ⟨"fork:true", "archived:true", "archived forked"⟩

def searchConfigurations : List SearchConfig :=
  [configNonArchivedNonForked, configNonArchivedForked, configArchived]

/-- A search strategy descriptor as built by the scanner.  `year = none`
models a JavaScript object without a (truthy) `year` property, and
`isMonthly = false` models an absent `isMonthly` property. -/
structure SearchStrategy where
  query : String
  description : String
  year : Option Nat := none
  month : Option Nat := none
  forkQualifier : String := ""
  archivedState : String := ""
  isMonthly : Bool := false
deriving Repr, DecidableEq

/-- Years scanned: from `currentYear` down to the fixed floor 2014
(`for (let year = currentYear; year >= startYear; year--)`). -/
def yearsList (currentYear : Nat) : List Nat :=
  (List.range (currentYear + 1 - 2014)).map (fun i => currentYear - i)

/-- One yearly strategy (source lines 291-299). -/
def mkYearStrategy (cfg : ScanConfig) (year : Nat) (c : SearchConfig) : SearchStrategy :=
  { query := (cfg.baseQuery ++ " " ++ c.forkQualifier ++ " " ++ c.archivedQualifier ++
      " created:" ++ toString year ++ "-01-01.." ++ toString year ++ "-12-31 " ++
      cfg.additionalQualifiers |> jsTrim)
    description := c.description ++ " repositories created in " ++ toString year
    year := some year
    forkQualifier := c.forkQualifier
    archivedState := c.archivedQualifier
    isMonthly := false }

/-- Embedding of `getSearchStrategies` (partitioned scanner):
every year from the current year down to 2014, crossed with the three
fork/archive configurations. -/
def getSearchStrategies (cfg : ScanConfig) (currentYear : Nat) : List SearchStrategy :=
  (yearsList currentYear).flatMap
    (fun y => searchConfigurations.map (mkYearStrategy cfg y))

/-- The fork/archive/creation facts of a repository that the search
qualifiers of a strategy can observe. -/
structure RepoFacts where
  fork : Bool
  archived : Bool
  createdYear : Nat
deriving Repr, DecidableEq

/-- Semantics of the `fork:` search qualifier of the external search API.
Per the platform's documented behaviour (and the source comment, lines
273-276, which relies on it): forks are excluded by default,
`fork:true` *includes* forks alongside non-forks, `fork:only` restricts
to forks, and `fork:false` keeps the default exclusion. -/
def forkQualifierSelects : String → Bool → Bool
  | "fork:false", isFork => !isFork
  | "fork:true", _ => true
  | "fork:only", isFork => isFork
  | _, isFork => !isFork

/-- Semantics of the `archived:` search qualifier of the external
search API: restricts results to the given archive status. -/
def archivedQualifierSelects : String → Bool → Bool
  | "archived:false", a => !a
  | "archived:true", a => a
  | _, _ => true

/-- Which repositories a yearly strategy's query selects: the fork and
archive qualifiers both hold and the repository was created in the
strategy's year (the query carries
`created:YYYY-01-01..YYYY-12-31`). -/
def strategySelects (s : SearchStrategy) (r : RepoFacts) : Bool :=
  forkQualifierSelects s.forkQualifier r.fork &&
  archivedQualifierSelects s.archivedState r.archived &&
  (s.year == some r.createdYear)

/-- **C1.** Every fork/archive/creation-year combination with a year
between 2014 and the current year is selected by some strategy produced
by the Query Planner; in particular archived non-forked repositories
are covered (the `fork:true archived:true` query includes non-forks). -/
theorem c1_strategies_cover (cfg : ScanConfig) (currentYear : Nat) (r : RepoFacts)
    (h1 : 2014 ≤ r.createdYear) (h2 : r.createdYear ≤ currentYear) :
    ∃ s ∈ getSearchStrategies cfg currentYear, strategySelects s r = true := by
  have hy : r.createdYear ∈ yearsList currentYear := by
    unfold yearsList
    rw [List.mem_map]
    refine ⟨currentYear - r.createdYear, ?_, by omega⟩
    rw [List.mem_range]
    omega
  set c : SearchConfig :=
    if r.archived then configArchived
    else if r.fork then configNonArchivedForked
    else configNonArchivedNonForked with hc
  refine ⟨mkYearStrategy cfg r.createdYear c, ?_, ?_⟩
  · rw [getSearchStrategies, List.mem_flatMap]
    refine ⟨r.createdYear, hy, ?_⟩
    rw [List.mem_map]
    refine ⟨c, ?_, rfl⟩
    rw [hc]
    rcases r.archived <;> rcases r.fork <;> simp [searchConfigurations]
  · rw [hc]
    rcases hr : r.archived <;> rcases hf : r.fork <;>
      simp [strategySelects, mkYearStrategy, configArchived,
        configNonArchivedForked, configNonArchivedNonForked,
        forkQualifierSelects, archivedQualifierSelects, hr, hf]

/-- Witness for C1: with the default configuration in 2025, an archived
non-forked repository created in 2020 is covered by some strategy. -/
theorem c1_strategies_cover_witness :
    2014 ≤ 2020 ∧ 2020 ≤ 2025 ∧
      ∃ s ∈ getSearchStrategies {} 2025,
        strategySelects s ⟨false, true, 2020⟩ = true :=
  ⟨by decide, by decide,
    c1_strategies_cover {} 2025 ⟨false, true, 2020⟩ (by decide) (by decide)⟩

/-! ## Calendar model for `searchYearByMonths` date computation -/

/-- Gregorian leap-year rule, as implemented by the JavaScript `Date`
normalization the scanner relies on. -/
def isLeapYear (y : Nat) : Bool :=
  y % 4 = 0 && (y % 100 ≠ 0 || y % 400 = 0)

/-- Days in a (1-indexed) month of the Gregorian calendar, as
implemented by the JavaScript `Date` normalization. -/
def daysInMonth (y m : Nat) : Nat :=
  if m = 2 then (if isLeapYear y then 29 else 28)
  else if m = 4 ∨ m = 6 ∨ m = 9 ∨ m = 11 then 30
  else 31

/-- Embedding of `new Date(year, month, 0)` (month argument 0-indexed,
day 0) under a zero UTC offset, as on the CI runners executing the
scanner: day 0 normalizes to the last day of the preceding month.
Returns the normalized `(year, month (1-indexed), day)` triple that
`toISOString().split('T')[0]` exposes. -/
def jsDateDay0 (year monthArg : Nat) : Nat × Nat × Nat :=
  let t := year * 12 + monthArg     -- absolute 0-indexed month count
  let u := t - 1                    -- day 0 = last day of previous month
  let y := u / 12
  let m := u % 12 + 1
  (y, m, daysInMonth y m)

/-- JS `String(n).padStart(2, '0')`. -/
def pad2 (n : Nat) : String :=
  if n < 10 then "0" ++ toString n else toString n

/-- The `startDate` string of the month subdivision
(`${year}-${monthStr}-01`). -/
def monthStartDate (year month : Nat) : String :=
  toString year ++ "-" ++ pad2 month ++ "-01"

/-- The `endDate` string of the month subdivision
(`new Date(year, month, 0).toISOString().split('T')[0]`). -/
def monthEndDate (year month : Nat) : String :=
  let e := jsDateDay0 year month
  toString e.1 ++ "-" ++ pad2 e.2.1 ++ "-" ++ pad2 e.2.2

/-- One monthly sub-strategy built by `searchYearByMonths`
(partitioned scanner, lines 384-400), inheriting the fork/archive
qualifiers of the parent yearly strategy (with the source's `||`
fallbacks for absent properties). -/
def monthStrategy (cfg : ScanConfig) (yearStrategy : SearchStrategy) (month : Nat) :
    SearchStrategy :=
  let year := yearStrategy.year.getD 0
  let archivedQualifier :=
    if yearStrategy.archivedState = "" then "archived:false" else yearStrategy.archivedState
  let forkQualifier :=
    if yearStrategy.forkQualifier = "" then "fork:true" else yearStrategy.forkQualifier
  { query := (cfg.baseQuery ++ " " ++ forkQualifier ++ " " ++ archivedQualifier ++
      " created:" ++ monthStartDate year month ++ ".." ++ monthEndDate year month ++
      " " ++ cfg.additionalQualifiers |> jsTrim)
    description := "Repositories created in " ++ toString year ++ "-" ++ pad2 month ++
      " (" ++ forkQualifier ++ " " ++ archivedQualifier ++ ")"
    year := some year
    month := some month
    forkQualifier := forkQualifier
    archivedState := archivedQualifier
    isMonthly := true }

/-- The twelve monthly sub-strategies of a yearly strategy
(`for (let month = 1; month <= 12; month++)`). -/
def monthStrategies (cfg : ScanConfig) (yearStrategy : SearchStrategy) :
    List SearchStrategy :=
  ((List.range 12).map (fun i => i + 1)).map (monthStrategy cfg yearStrategy)

/-- **C8.** For every year and month 1..12, the monthly sub-query's
date range starts on the first of the month and ends on the last day
of that same month as computed by the `Date(year, month, 0)`
normalization; in February the end day is the 29th in leap years and
the 28th otherwise. -/
theorem c8_month_end_dates (y m : Nat) (hy : 1 ≤ y) (hm1 : 1 ≤ m) (hm2 : m ≤ 12) :
    jsDateDay0 y m = (y, m, daysInMonth y m) ∧
    monthEndDate y m = toString y ++ "-" ++ pad2 m ++ "-" ++ pad2 (daysInMonth y m) ∧
    monthStartDate y m = toString y ++ "-" ++ pad2 m ++ "-01" ∧
    (m = 2 → daysInMonth y m = if isLeapYear y then 29 else 28) := by
  have hnorm : jsDateDay0 y m = (y, m, daysInMonth y m) := by
    unfold jsDateDay0
    have hu : y * 12 + m - 1 = 12 * y + (m - 1) := by omega
    have hdiv := Nat.div_add_mod (12 * y + (m - 1)) 12
    have hlt : (12 * y + (m - 1)) % 12 < 12 := Nat.mod_lt _ (by omega)
    have hq : (12 * y + (m - 1)) / 12 = y := by omega
    have hr : (12 * y + (m - 1)) % 12 = m - 1 := by omega
    simp only [hu, hq, hr]
    have : m - 1 + 1 = m := by omega
    rw [this]
  refine ⟨hnorm, ?_, rfl, fun h2 => by rw [h2]; rfl⟩
  unfold monthEndDate
  rw [hnorm]

/-- Witness for C8: February 2024 (leap) ends on the 29th and February
2023 ends on the 28th. -/
theorem c8_month_end_dates_witness :
    (jsDateDay0 2024 2 = (2024, 2, 29) ∧ monthEndDate 2024 2 = "2024-02-29") ∧
    (jsDateDay0 2023 2 = (2023, 2, 28) ∧ monthEndDate 2023 2 = "2023-02-28") := by
  have h24 := c8_month_end_dates 2024 2 (by decide) (by decide) (by decide)
  have h23 := c8_month_end_dates 2023 2 (by decide) (by decide) (by decide)
  refine ⟨⟨?_, ?_⟩, ⟨?_, ?_⟩⟩
  · rw [h24.1]; decide
  · rw [h24.2.1]; decide
  · rw [h23.1]; decide
  · rw [h23.2.1]; decide

/-! ## Paginated Fetcher and Adaptive Subdivider -/

/-- An error thrown by the external search API. -/
structure ApiError where
  status : Nat
  message : String
deriving Repr, DecidableEq

instance {ε α : Type} [DecidableEq ε] [DecidableEq α] : DecidableEq (Except ε α)
  | .error e, .error f =>
    if h : e = f then .isTrue (by rw [h])
    else .isFalse (fun hc => by cases hc; exact h rfl)
  | .error _, .ok _ => .isFalse (fun hc => by cases hc)
  | .ok _, .error _ => .isFalse (fun hc => by cases hc)
  | .ok a, .ok b =>
    if h : a = b then .isTrue (by rw [h])
    else .isFalse (fun hc => by cases hc; exact h rfl)

/-- JS `String.prototype.includes` on character lists: some suffix of
`l` starts with `pat`. -/
def jsIncludes (l pat : List Char) : Bool :=
  pat.isPrefixOf l ||
    match l with
    | [] => false
    | _ :: xs => jsIncludes xs pat

/-- The platform's result-ceiling error, recognized by
`error.status === 422 && error.message.includes('Only the first 1000
search results are available')`. -/
def isLimitError (e : ApiError) : Bool :=
  e.status == 422 &&
    jsIncludes e.message.data "Only the first 1000 search results are available".data

/-- The search API as an oracle: a query string and a (1-based) page
number yield either that page's items or a thrown error.  The item
type is abstract — the fetcher never inspects items. -/
def SearchEnv (α : Type) : Type := String → Nat → Except ApiError (List α)

/-- Outcome of the pagination `while` loop of `searchWithStrategy`:
either it ran to completion (`done`, by exhaustion or the 10-page cap),
or the limit error fired and the partial accumulation stands
(`limitHit`), or another error was re-thrown (`err`). -/
inductive PaginateResult (α : Type) where
  | done (repos : List α)
  | limitHit (partialRepos : List α)
  | err (e : ApiError)
deriving Repr, DecidableEq

/-- The pagination loop (`while (hasNextPage && page <= maxPages)`,
`per_page: 100`), by recursion on the remaining page budget. -/
def paginateAux {α : Type} (env : SearchEnv α) (q : String) :
    Nat → Nat → List α → PaginateResult α
  | 0, _, acc => .done acc
  | remaining + 1, page, acc =>
    match env q page with
    | .error e => if isLimitError e then .limitHit acc else .err e
    | .ok items =>
      let acc := acc ++ items
      if items.length = 100 then paginateAux env q remaining (page + 1) acc
      else .done acc

/-- Full pagination of one query: up to `maxPages = 10` pages starting
at page 1. -/
def paginate {α : Type} (env : SearchEnv α) (q : String) : PaginateResult α :=
  paginateAux env q 10 1 []

/-- Pagination as run for a *monthly* strategy, where the limit error
merely terminates the loop (`break`) and the accumulated items are
returned.  Inside `searchYearByMonths` the source calls
`searchWithStrategy` recursively on monthly strategies; since those
have `isMonthly = true`, that call reduces to exactly this function
(theorem `searchWithStrategy_monthly` below). -/
def runPagination {α : Type} (env : SearchEnv α) (q : String) :
    Except ApiError (List α) :=
  match paginate env q with
  | .done repos => .ok repos
  | .limitHit partialRepos => .ok partialRepos
  | .err e => .error e

/-- Sequential concatenation of monthly results, aborting at the first
re-thrown error (the `await` inside the month loop). -/
def concatResults {α : Type} : List (Except ApiError (List α)) → Except ApiError (List α)
  | [] => .ok []
  | r :: rest =>
    match r with
    | .error e => .error e
    | .ok x =>
      match concatResults rest with
      | .error e => .error e
      | .ok xs => .ok (x ++ xs)

/-- Embedding of `searchYearByMonths` (partitioned scanner): run every
monthly sub-strategy through the fetcher and concatenate. -/
def searchYearByMonths {α : Type} (cfg : ScanConfig) (env : SearchEnv α)
    (yearStrategy : SearchStrategy) : Except ApiError (List α) :=
  concatResults ((monthStrategies cfg yearStrategy).map
    (fun ms => runPagination env ms.query))

/-- Embedding of `searchWithStrategy` (partitioned scanner, lines
310-368).  On the limit error: a yearly strategy is re-issued month by
month and *only* the monthly results are returned; otherwise the loop
breaks with the partial accumulation.  A completed loop whose count
lands exactly on 1000 likewise triggers the monthly breakdown for
yearly strategies. -/
def searchWithStrategy {α : Type} (cfg : ScanConfig) (env : SearchEnv α)
    (strategy : SearchStrategy) : Except ApiError (List α) :=
  match paginate env strategy.query with
  | .err e => .error e
  | .limitHit partialRepos =>
    if strategy.year.isSome && !strategy.isMonthly then
      searchYearByMonths cfg env strategy
    else
      .ok partialRepos
  | .done repos =>
    if repos.length = 1000 && strategy.year.isSome && !strategy.isMonthly then
      searchYearByMonths cfg env strategy
    else
      .ok repos

/-- On monthly strategies the recursive `searchWithStrategy` call made
by `searchYearByMonths` performs pure pagination: the subdivision
branches are unreachable because `isMonthly` is set. -/
theorem searchWithStrategy_monthly {α : Type} (cfg : ScanConfig) (env : SearchEnv α)
    (s : SearchStrategy) (h : s.isMonthly = true) :
    searchWithStrategy cfg env s = runPagination env s.query := by
  unfold searchWithStrategy runPagination
  cases paginate env s.query with
  | done repos => simp [h]
  | limitHit p => simp [h]
  | err e => rfl

/-- An error surfaced by the pagination loop is never the limit error
and is one thrown by a page fetch, unchanged. -/
theorem paginateAux_err {α : Type} (env : SearchEnv α) (q : String) :
    ∀ (rem page : Nat) (acc : List α) (e : ApiError),
      paginateAux env q rem page acc = .err e →
      isLimitError e = false ∧ ∃ p, env q p = .error e := by
  intro rem
  induction rem with
  | zero => intro page acc e h; simp [paginateAux] at h
  | succ n ih =>
    intro page acc e h
    unfold paginateAux at h
    cases henv : env q page with
    | error e' =>
      rw [henv] at h
      dsimp only at h
      by_cases hl : isLimitError e' = true
      · rw [if_pos hl] at h
        cases h
      · rw [if_neg hl] at h
        cases h
        exact ⟨by simpa using hl, page, henv⟩
    | ok items =>
      rw [henv] at h
      dsimp only at h
      by_cases hlen : items.length = 100
      · rw [if_pos hlen] at h
        exact ih (page + 1) (acc ++ items) e h
      · rw [if_neg hlen] at h
        cases h

/-- `runPagination` errors only with a non-limit error thrown by some
page fetch. -/
theorem runPagination_error {α : Type} (env : SearchEnv α) (q : String) (e : ApiError)
    (h : runPagination env q = .error e) :
    isLimitError e = false ∧ ∃ p, env q p = .error e := by
  unfold runPagination at h
  cases hp : paginate env q with
  | done repos => rw [hp] at h; cases h
  | limitHit p => rw [hp] at h; cases h
  | err e' =>
    rw [hp] at h
    cases h
    exact paginateAux_err env q 10 1 [] e hp

/-- A failed concatenation pinpoints a failed month. -/
theorem concatResults_error {α : Type} :
    ∀ (rs : List (Except ApiError (List α))) (e : ApiError),
      concatResults rs = .error e → Except.error e ∈ rs := by
  intro rs
  induction rs with
  | nil => intro e h; simp [concatResults] at h
  | cons r rest ih =>
    intro e h
    unfold concatResults at h
    cases r with
    | error e' =>
      dsimp only at h
      cases h
      exact List.mem_cons_self _ _
    | ok x =>
      dsimp only at h
      cases hrest : concatResults rest with
      | error e' =>
        rw [hrest] at h
        cases h
        exact List.mem_cons_of_mem _ (ih e hrest)
      | ok xs => rw [hrest] at h; cases h

/-- If pagination reaches a page whose fetch throws a non-limit error
(all earlier pages being full), the loop surfaces exactly that
error. -/
theorem paginateAux_reaches_err {α : Type} (env : SearchEnv α) (q : String)
    (e : ApiError) (hnl : isLimitError e = false) :
    ∀ (d rem page : Nat) (acc : List α), d < rem →
      (∀ j, page ≤ j → j < page + d → ∃ l, env q j = .ok l ∧ l.length = 100) →
      env q (page + d) = .error e →
      paginateAux env q rem page acc = .err e := by
  intro d
  induction d with
  | zero =>
    intro rem page acc hlt _ herr
    obtain ⟨r, rfl⟩ : ∃ r, rem = r + 1 := ⟨rem - 1, by omega⟩
    unfold paginateAux
    rw [Nat.add_zero] at herr
    rw [herr]
    dsimp only
    rw [if_neg (by simp [hnl])]
  | succ n ih =>
    intro rem page acc hlt hfull herr
    obtain ⟨r, rfl⟩ : ∃ r, rem = r + 1 := ⟨rem - 1, by omega⟩
    obtain ⟨l, hl, hlen⟩ := hfull page (Nat.le_refl _) (by omega)
    unfold paginateAux
    rw [hl]
    dsimp only
    rw [if_pos hlen]
    refine ih r (page + 1) (acc ++ l) (by omega)
      (fun j hj1 hj2 => hfull j (by omega) (by omega)) ?_
    have : page + 1 + n = page + (n + 1) := by omega
    rw [this]
    exact herr

/-- **C3.** Inside `searchWithStrategy` the 422 limit error is always
caught locally and never reaches the caller, while any error a page
fetch throws that is not the limit error is re-thrown unchanged and
aborts the strategy: (1) an error returned by `searchWithStrategy` is
a non-limit error thrown by some page fetch; (2) if pagination reaches
page `k` (all earlier pages full) and the fetch of page `k` throws a
non-limit error, `searchWithStrategy` returns exactly that error. -/
theorem c3_limit_error_caught_others_rethrown {α : Type} (cfg : ScanConfig)
    (env : SearchEnv α) (strategy : SearchStrategy) (e : ApiError) :
    (searchWithStrategy cfg env strategy = .error e →
      isLimitError e = false ∧ ∃ q p, env q p = .error e) ∧
    (∀ k, 1 ≤ k → k ≤ 10 →
      (∀ j, 1 ≤ j → j < k → ∃ l, env strategy.query j = .ok l ∧ l.length = 100) →
      env strategy.query k = .error e → isLimitError e = false →
      searchWithStrategy cfg env strategy = .error e) := by
  have monthsCase : searchYearByMonths cfg env strategy = .error e →
      isLimitError e = false ∧ ∃ q p, env q p = .error e := by
    intro h
    unfold searchYearByMonths at h
    have hmem := concatResults_error _ e h
    rw [List.mem_map] at hmem
    obtain ⟨ms, _, heq⟩ := hmem
    obtain ⟨hnl, p, hpg⟩ := runPagination_error env ms.query e heq
    exact ⟨hnl, ms.query, p, hpg⟩
  constructor
  · intro h
    unfold searchWithStrategy at h
    cases hp : paginate env strategy.query with
    | err e' =>
      rw [hp] at h
      dsimp only at h
      cases h
      obtain ⟨hnl, p, hpg⟩ := paginateAux_err env strategy.query 10 1 [] e hp
      exact ⟨hnl, strategy.query, p, hpg⟩
    | limitHit partialRepos =>
      rw [hp] at h
      dsimp only at h
      split at h
      · exact monthsCase h
      · cases h
    | done repos =>
      rw [hp] at h
      dsimp only at h
      split at h
      · exact monthsCase h
      · cases h
  · intro k hk1 hk10 hfull herr hnl
    have hmain : paginate env strategy.query = .err e := by
      unfold paginate
      refine paginateAux_reaches_err env strategy.query e hnl (k - 1) 10 1 [] (by omega)
        (fun j hj1 hj2 => hfull j hj1 (by omega)) ?_
      have : 1 + (k - 1) = k := by omega
      rw [this]
      exact herr
    unfold searchWithStrategy
    rw [hmain]

/-- Witness for C3: a 500-status error thrown on the first page of a
yearly strategy is returned unchanged to the caller. -/
theorem c3_limit_error_caught_others_rethrown_witness :
    searchWithStrategy (α := Nat) {} (fun _ _ => .error ⟨500, "boom"⟩)
      (mkYearStrategy {} 2020 configArchived) = .error ⟨500, "boom"⟩ :=
  (c3_limit_error_caught_others_rethrown {} (fun _ _ => .error ⟨500, "boom"⟩)
    (mkYearStrategy {} 2020 configArchived) ⟨500, "boom"⟩).2
    1 (by decide) (by decide)
    (fun j hj1 hj2 => absurd (Nat.lt_of_le_of_lt hj1 hj2) (by decide))
    rfl (by decide)

/-! ## The earlier non-partitioned scanner variant -/

/-- One yearly strategy of the non-partitioned scanner variant
(no fork/archive qualifiers). -/
def mkYearStrategyV1 (cfg : ScanConfig) (year : Nat) : SearchStrategy :=
  { query := (cfg.baseQuery ++ " created:" ++ toString year ++ "-01-01.." ++
      toString year ++ "-12-31 " ++ cfg.additionalQualifiers |> jsTrim)
    description := "Repositories created in " ++ toString year
    year := some year
    isMonthly := false }

/-- `getSearchStrategies` of the non-partitioned variant. -/
def getSearchStrategiesV1 (cfg : ScanConfig) (currentYear : Nat) : List SearchStrategy :=
  (yearsList currentYear).map (mkYearStrategyV1 cfg)

/-- One monthly sub-strategy of the non-partitioned variant's
`searchYearByMonths`. -/
def monthStrategyV1 (cfg : ScanConfig) (yearStrategy : SearchStrategy) (month : Nat) :
    SearchStrategy :=
  let year := yearStrategy.year.getD 0
  { query := (cfg.baseQuery ++ " created:" ++ monthStartDate year month ++ ".." ++
      monthEndDate year month ++ " " ++ cfg.additionalQualifiers |> jsTrim)
    description := "Repositories created in " ++ toString year ++ "-" ++ pad2 month
    year := some year
    month := some month
    isMonthly := true }

/-- The twelve monthly sub-strategies of the non-partitioned variant. -/
def monthStrategiesV1 (cfg : ScanConfig) (yearStrategy : SearchStrategy) :
    List SearchStrategy :=
  ((List.range 12).map (fun i => i + 1)).map (monthStrategyV1 cfg yearStrategy)

/-- `searchYearByMonths` of the non-partitioned variant. -/
def searchYearByMonthsV1 {α : Type} (cfg : ScanConfig) (env : SearchEnv α)
    (yearStrategy : SearchStrategy) : Except ApiError (List α) :=
  concatResults ((monthStrategiesV1 cfg yearStrategy).map
    (fun ms => runPagination env ms.query))

/-- Embedding of `searchWithStrategy` of the non-partitioned variant
(lines 193-243): on the limit error for a yearly strategy it runs the
monthly breakdown and `repositories.push(...monthlyResults)` — the
partial results already collected from the saturated yearly query are
*kept* and the monthly results appended; there is no exact-1000
check. -/
def searchWithStrategyV1 {α : Type} (cfg : ScanConfig) (env : SearchEnv α)
    (strategy : SearchStrategy) : Except ApiError (List α) :=
  match paginate env strategy.query with
  | .err e => .error e
  | .limitHit partialRepos =>
    if strategy.year.isSome && !strategy.isMonthly then
      match searchYearByMonthsV1 cfg env strategy with
      | .error e => .error e
      | .ok monthly => .ok (partialRepos ++ monthly)
    else
      .ok partialRepos
  | .done repos => .ok repos

/-! ## C2: saturation discards partial results (partitioned variant only) -/

/-- A concrete limit error as the platform throws it. -/
def limitError : ApiError :=
  ⟨422, "Validation Failed: Only the first 1000 search results are available"⟩

/-- Concrete environment for the C2 counterexample: page 1 of the
yearly 2020 query of the non-partitioned variant is full, page 2
throws the limit error, and every monthly query returns the single
item `7`. -/
def c2Env : SearchEnv Nat := fun q p =>
  if q = (mkYearStrategyV1 {} 2020).query then
    if p = 1 then .ok (List.range 100) else .error limitError
  else
    .ok [7]

/-- **C2, counterexample.** In the non-partitioned variant (whose
`searchWithStrategy` the claim also describes), a yearly strategy that
hits the limit error does *not* return only the twelve monthly
results: the 100 partial items collected before the error are kept and
the monthly results appended, so the returned list differs from the
monthly concatenation. -/
theorem c2_counterexample :
    paginate c2Env (mkYearStrategyV1 {} 2020).query = .limitHit (List.range 100) ∧
    searchYearByMonthsV1 {} c2Env (mkYearStrategyV1 {} 2020) =
      .ok [7, 7, 7, 7, 7, 7, 7, 7, 7, 7, 7, 7] ∧
    searchWithStrategyV1 {} c2Env (mkYearStrategyV1 {} 2020) =
      .ok (List.range 100 ++ [7, 7, 7, 7, 7, 7, 7, 7, 7, 7, 7, 7]) ∧
    searchWithStrategyV1 {} c2Env (mkYearStrategyV1 {} 2020) ≠
      searchYearByMonthsV1 {} c2Env (mkYearStrategyV1 {} 2020) := by
  refine ⟨by decide, by decide, by decide, by decide⟩

/-- **C2 (amended).** In the *partitioned* variant, whenever a yearly
(non-monthly) strategy saturates — the limit error fires during
pagination or the completed count lands exactly on 1000 —
`searchWithStrategy` returns exactly the concatenation of the twelve
monthly sub-strategies' results (each itself run through
`searchWithStrategy`), with the partial results of the saturated
yearly query discarded. -/
theorem c2_saturation_returns_monthly_concat {α : Type} (cfg : ScanConfig)
    (env : SearchEnv α) (strategy : SearchStrategy)
    (hy : strategy.year.isSome = true) (hm : strategy.isMonthly = false)
    (hsat : (∃ p, paginate env strategy.query = .limitHit p) ∨
            (∃ l, paginate env strategy.query = .done l ∧ l.length = 1000)) :
    searchWithStrategy cfg env strategy =
      concatResults ((monthStrategies cfg strategy).map
        (fun ms => searchWithStrategy cfg env ms)) ∧
    (monthStrategies cfg strategy).length = 12 := by
  have hmap : (monthStrategies cfg strategy).map
      (fun ms => searchWithStrategy cfg env ms) =
      (monthStrategies cfg strategy).map (fun ms => runPagination env ms.query) := by
    refine List.map_congr_left (fun ms hms => ?_)
    have hmonthly : ms.isMonthly = true := by
      unfold monthStrategies at hms
      rw [List.mem_map] at hms
      obtain ⟨m, _, rfl⟩ := hms
      rfl
    exact searchWithStrategy_monthly cfg env ms hmonthly
  have hgoal : searchWithStrategy cfg env strategy = searchYearByMonths cfg env strategy := by
    unfold searchWithStrategy
    rcases hsat with ⟨p, hp⟩ | ⟨l, hl, hlen⟩
    · rw [hp]
      dsimp only
      rw [if_pos (by simp [hy, hm])]
    · rw [hl]
      dsimp only
      rw [if_pos (by simp [hy, hm, hlen])]
  refine ⟨?_, by simp [monthStrategies]⟩
  rw [hgoal]
  unfold searchYearByMonths
  rw [hmap]

/-- Concrete environment for the C2 witness: page 2 of the yearly 2020
archived-partition query throws the limit error, and every monthly
query returns the single item `5`. -/
def c2WitnessEnv : SearchEnv Nat := fun q p =>
  if q = (mkYearStrategy {} 2020 configArchived).query then
    if p = 1 then .ok (List.range 100) else .error limitError
  else
    .ok [5]

/-- Witness for the amended C2: the saturated yearly strategy returns
exactly the twelve monthly results. -/
theorem c2_saturation_returns_monthly_concat_witness :
    searchWithStrategy {} c2WitnessEnv (mkYearStrategy {} 2020 configArchived) =
      concatResults ((monthStrategies {} (mkYearStrategy {} 2020 configArchived)).map
        (fun ms => searchWithStrategy {} c2WitnessEnv ms)) ∧
    (monthStrategies {} (mkYearStrategy {} 2020 configArchived)).length = 12 :=
  c2_saturation_returns_monthly_concat {} c2WitnessEnv
    (mkYearStrategy {} 2020 configArchived) (by decide) (by decide)
    (Or.inl ⟨List.range 100, by decide⟩)

/-! ## Repository Ledger -/

/-- A ledger entry.  Beyond the `valid` liveness flag the projected
metadata fields are irrelevant to the claims and collapsed into an
opaque `payload`. -/
structure TrackedRepo where
  valid : Bool
  payload : String := ""
deriving Repr, DecidableEq

/-- The `repositories` mapping of the ledger: a JavaScript object,
i.e. an insertion-ordered association list with unique keys
(repository full names). -/
abbrev LedgerMap : Type := List (String × TrackedRepo)

/-- Property access `repositories[key]`. -/
def lookupRepo (l : LedgerMap) (k : String) : Option TrackedRepo :=
  (l.find? (fun p => p.1 == k)).map (fun p => p.2)

/-- The scan-start invalidation (lines 174-178):
`existingRepoKeys.forEach(key => { repositories[key].valid = false })`. -/
def markAllInvalid (l : LedgerMap) : LedgerMap :=
  l.map (fun p => (p.1, { p.2 with valid := false }))

/-- JavaScript object assignment `repositories[key] = v`: replaces the
value in place if the key exists, appends otherwise. -/
def upsertRepo (l : LedgerMap) (k : String) (v : TrackedRepo) : LedgerMap :=
  if (l.find? (fun p => p.1 == k)).isSome then
    l.map (fun p => if p.1 == k then (k, v) else p)
  else
    l ++ [(k, v)]

/-- The strategy loop of `scanForIoBrokerRepositories` as it affects
the ledger: after the scan-start invalidation, every observed record
is upserted with `valid: true` (the `repoData` literal). -/
def applyScan (l : LedgerMap) (observed : List (String × TrackedRepo)) : LedgerMap :=
  observed.foldl (fun acc kv => upsertRepo acc kv.1 { kv.2 with valid := true })
    (markAllInvalid l)

/-- The persisted shape produced by `saveRepositoriesToJson`
(the fields the claims are about). -/
structure SaveData where
  totalRepositories : Nat
  repositories : LedgerMap

/-- Embedding of `saveRepositoriesToJson(cleanup)` (partitioned
scanner, lines 119-146): with `cleanup` the entries whose `valid` flag
is not `true` are dropped first; `totalRepositories` is the number of
keys of the resulting mapping. -/
def saveRepositoriesToJson (cleanup : Bool) (l : LedgerMap) : SaveData :=
  let l' := if cleanup then l.filter (fun p => p.2.valid == true) else l
  { totalRepositories := l'.length, repositories := l' }

/-- `markAllInvalid` clears the flag of the looked-up entry. -/
theorem lookupRepo_markAllInvalid (l : LedgerMap) (k : String) :
    lookupRepo (markAllInvalid l) k =
      (lookupRepo l k).map (fun r => { r with valid := false }) := by
  induction l with
  | nil => rfl
  | cons p rest ih =>
    unfold lookupRepo markAllInvalid at *
    simp only [List.map_cons, List.find?]
    by_cases h : p.1 == k
    · rw [h]
      rfl
    · rw [Bool.not_eq_true] at h
      rw [h]
      exact ih

/-- A key search is untouched by a transformation that preserves keys
and fixes the entries whose key is searched for. -/
theorem find?_key_map_invariant (k : String)
    (f : String × TrackedRepo → String × TrackedRepo)
    (hf : ∀ p, (f p).1 = p.1) (hfk : ∀ p, (p.1 == k) = true → f p = p) :
    ∀ l : LedgerMap,
      (l.map f).find? (fun q => q.1 == k) = l.find? (fun q => q.1 == k) := by
  intro l
  induction l with
  | nil => rfl
  | cons p rest ih =>
    rw [List.map_cons]
    by_cases hp : (p.1 == k) = true
    · have h1 : ((f p).1 == k) = true := by rw [hf p]; exact hp
      rw [List.find?_cons_of_pos (p := fun q : String × TrackedRepo => q.1 == k) _ h1,
        List.find?_cons_of_pos (p := fun q : String × TrackedRepo => q.1 == k) _ hp, hfk p hp]
    · have h1 : ¬ ((f p).1 == k) = true := by rw [hf p]; exact hp
      rw [List.find?_cons_of_neg (p := fun q : String × TrackedRepo => q.1 == k) _ h1,
        List.find?_cons_of_neg (p := fun q : String × TrackedRepo => q.1 == k) _ hp]
      exact ih

/-- Upserting a different key leaves a lookup unchanged. -/
theorem lookupRepo_upsertRepo_ne (l : LedgerMap) (k k' : String) (v : TrackedRepo)
    (hne : k' ≠ k) : lookupRepo (upsertRepo l k' v) k = lookupRepo l k := by
  have hkk : ((k' : String) == k) = false := by simpa using hne
  unfold upsertRepo
  by_cases hmem : (l.find? (fun p => p.1 == k')).isSome
  · rw [if_pos hmem]
    unfold lookupRepo
    rw [find?_key_map_invariant k _ ?_ ?_ l]
    · intro p
      by_cases hp : (p.1 == k') = true
      · have : p.1 = k' := by simpa using hp
        simp [hp, this]
      · rw [Bool.not_eq_true] at hp
        have hne' : ¬ p.1 = k' := by simpa using hp
        simp [hp, hne']
    · intro p hp
      have h1 : p.1 = k := by simpa using hp
      have h2 : ¬ (p.1 == k') = true := by
        rw [h1]
        simpa using fun hc => hne hc.symm
      rw [Bool.not_eq_true] at h2
      have hne' : ¬ p.1 = k' := by rw [h1]; simpa using fun hc => hne hc.symm
      simp [h2, hne']
  · rw [if_neg hmem]
    unfold lookupRepo
    rw [List.find?_append]
    cases hf : l.find? (fun p => p.1 == k) with
    | some p => rfl
    | none =>
      simp only [Option.none_or]
      simp [List.find?, hkk]

/-- A key observed by no strategy survives the whole upsert fold
untouched. -/
theorem lookupRepo_foldl_upsert_ne (k : String) :
    ∀ (observed : List (String × TrackedRepo)) (base : LedgerMap),
      (∀ kv ∈ observed, kv.1 ≠ k) →
      lookupRepo (observed.foldl
        (fun acc kv => upsertRepo acc kv.1 { kv.2 with valid := true }) base) k =
        lookupRepo base k := by
  intro observed
  induction observed with
  | nil => intro base _; rfl
  | cons kv rest ih =>
    intro base hk
    simp only [List.foldl_cons]
    rw [ih _ (fun kv' h => hk kv' (List.mem_cons_of_mem _ h)),
      lookupRepo_upsertRepo_ne _ _ _ _ (hk kv (List.mem_cons_self _ _))]

/-- A key observed by no strategy keeps its (invalidated) entry through
the whole strategy loop. -/
theorem lookupRepo_applyScan_not_observed (l : LedgerMap)
    (observed : List (String × TrackedRepo)) (k : String)
    (hk : ∀ kv ∈ observed, kv.1 ≠ k) :
    lookupRepo (applyScan l observed) k =
      (lookupRepo l k).map (fun r => { r with valid := false }) := by
  unfold applyScan
  rw [lookupRepo_foldl_upsert_ne k observed _ hk, lookupRepo_markAllInvalid]

/-- The keys of a ledger mapping, in order. -/
def ledgerKeys (l : LedgerMap) : List String := l.map Prod.fst

/-- On a ledger with unique keys (as every JavaScript object has),
filtering out invalid entries removes an invalid entry's key. -/
theorem lookupRepo_filter_invalid (l : LedgerMap) (k : String)
    (hnd : (ledgerKeys l).Nodup) (r : TrackedRepo)
    (hr : lookupRepo l k = some r) (hv : r.valid = false) :
    lookupRepo (l.filter (fun p => p.2.valid == true)) k = none := by
  induction l with
  | nil => cases hr
  | cons p rest ih =>
    unfold lookupRepo at *
    simp only [List.find?] at hr
    rw [show ledgerKeys (p :: rest) = p.1 :: ledgerKeys rest from rfl,
      List.nodup_cons] at hnd
    by_cases h : p.1 == k
    · rw [h] at hr
      dsimp only at hr
      cases hr
      rw [List.filter_cons]
      rw [show (p.2.valid == true) = false from by simpa using hv]
      simp only [Bool.false_eq_true, if_false]
      have hknotin : k ∉ ledgerKeys rest := by
        have : p.1 = k := by simpa using h
        rw [← this]
        exact hnd.1
      rw [show (rest.filter (fun q => q.2.valid == true)).find?
            (fun q => q.1 == k) = none from ?_]
      · rfl
      · rw [List.find?_eq_none]
        intro q hq hqk
        exact hknotin (List.mem_map.mpr ⟨q, List.mem_of_mem_filter hq, by simpa using hqk⟩)
    · rw [Bool.not_eq_true] at h
      rw [h] at hr
      dsimp only at hr
      rw [List.filter_cons]
      by_cases hpv : (p.2.valid == true) = true
      · rw [hpv]
        simp only [if_true]
        simp only [List.find?, h]
        exact ih hnd.2 hr
      · rw [Bool.not_eq_true] at hpv
        rw [hpv]
        simp only [Bool.false_eq_true, if_false]
        exact ih hnd.2 hr

/-- Invalidation does not change the keys. -/
theorem ledgerKeys_markAllInvalid (l : LedgerMap) :
    ledgerKeys (markAllInvalid l) = ledgerKeys l := by
  unfold ledgerKeys markAllInvalid
  rw [List.map_map]
  rfl

/-- An upsert either rewrites in place (same keys) or appends a fresh
key; in both cases key uniqueness is preserved. -/
theorem ledgerKeys_upsertRepo_nodup (l : LedgerMap) (k : String) (v : TrackedRepo)
    (hnd : (ledgerKeys l).Nodup) : (ledgerKeys (upsertRepo l k v)).Nodup := by
  unfold upsertRepo
  by_cases hmem : (l.find? (fun p => p.1 == k)).isSome
  · rw [if_pos hmem]
    have hkeys : ledgerKeys (l.map (fun p => if p.1 == k then (k, v) else p)) =
        ledgerKeys l := by
      unfold ledgerKeys
      rw [List.map_map]
      refine List.map_congr_left (fun p _ => ?_)
      by_cases hp : p.1 == k
      · have : p.1 = k := by simpa using hp
        simp [hp, this]
      · rw [Bool.not_eq_true] at hp
        have hne : ¬ p.1 = k := by simpa using hp
        simp [hp, hne]
    rw [hkeys]
    exact hnd
  · rw [if_neg hmem]
    have hknotin : k ∉ ledgerKeys l := by
      intro hk
      obtain ⟨p, hp, hpk⟩ := List.mem_map.mp hk
      rw [Option.not_isSome_iff_eq_none, List.find?_eq_none] at hmem
      exact hmem p hp (by simpa using hpk)
    unfold ledgerKeys
    rw [List.map_append]
    simp only [List.map_cons, List.map_nil]
    refine List.nodup_append.mpr ⟨hnd, List.nodup_singleton k, ?_⟩
    intro a ha hak
    rw [List.mem_singleton] at hak
    subst hak
    exact hknotin ha

/-- The whole scan preserves key uniqueness. -/
theorem ledgerKeys_applyScan_nodup (l : LedgerMap)
    (observed : List (String × TrackedRepo)) (hnd : (ledgerKeys l).Nodup) :
    (ledgerKeys (applyScan l observed)).Nodup := by
  unfold applyScan
  have hbase : (ledgerKeys (markAllInvalid l)).Nodup := by
    rw [ledgerKeys_markAllInvalid]
    exact hnd
  generalize markAllInvalid l = base at hbase ⊢
  induction observed generalizing base with
  | nil => exact hbase
  | cons kv rest ih =>
    simp only [List.foldl_cons]
    exact ih _ (ledgerKeys_upsertRepo_nodup _ _ _ hbase)

/-- **C4.** An entry present in the ledger before a scan and re-observed
by no strategy is, after the scan and save: still present with
`valid = false` when `cleanup` is off; removed when `cleanup` is on;
and a cleanup save reports `totalRepositories` equal to the number of
remaining entries, all of which are valid. -/
theorem c4_unobserved_entry_retention (l : LedgerMap)
    (observed : List (String × TrackedRepo)) (k : String) (r : TrackedRepo)
    (hnd : (ledgerKeys l).Nodup)
    (hr : lookupRepo l k = some r)
    (hobs : ∀ kv ∈ observed, kv.1 ≠ k) :
    lookupRepo (saveRepositoriesToJson false (applyScan l observed)).repositories k =
      some { r with valid := false } ∧
    lookupRepo (saveRepositoriesToJson true (applyScan l observed)).repositories k =
      none ∧
    (saveRepositoriesToJson true (applyScan l observed)).totalRepositories =
      (saveRepositoriesToJson true (applyScan l observed)).repositories.length ∧
    (∀ p ∈ (saveRepositoriesToJson true (applyScan l observed)).repositories,
      p.2.valid = true) := by
  have hscan : lookupRepo (applyScan l observed) k = some { r with valid := false } := by
    rw [lookupRepo_applyScan_not_observed l observed k hobs, hr]
    rfl
  refine ⟨?_, ?_, rfl, ?_⟩
  · unfold saveRepositoriesToJson
    exact hscan
  · unfold saveRepositoriesToJson
    exact lookupRepo_filter_invalid (applyScan l observed) k
      (ledgerKeys_applyScan_nodup l observed hnd) _ hscan rfl
  · intro p hp
    unfold saveRepositoriesToJson at hp
    simp only [if_pos] at hp
    have := List.of_mem_filter hp
    simpa using this

/-- Witness for C4: a one-entry ledger whose entry is not re-observed
(empty scan results): kept invalid without cleanup, dropped and not
counted with cleanup. -/
theorem c4_unobserved_entry_retention_witness :
    lookupRepo (saveRepositoriesToJson false
      (applyScan [("ioBroker/ioBroker.hue", ⟨true, "meta"⟩)] [])).repositories
      "ioBroker/ioBroker.hue" = some ⟨false, "meta"⟩ ∧
    lookupRepo (saveRepositoriesToJson true
      (applyScan [("ioBroker/ioBroker.hue", ⟨true, "meta"⟩)] [])).repositories
      "ioBroker/ioBroker.hue" = none ∧
    (saveRepositoriesToJson true
      (applyScan [("ioBroker/ioBroker.hue", ⟨true, "meta"⟩)] [])).totalRepositories =
      (saveRepositoriesToJson true
        (applyScan [("ioBroker/ioBroker.hue", ⟨true, "meta"⟩)] [])).repositories.length ∧
    (∀ p ∈ (saveRepositoriesToJson true
        (applyScan [("ioBroker/ioBroker.hue", ⟨true, "meta"⟩)] [])).repositories,
      p.2.valid = true) := by
  have h := c4_unobserved_entry_retention
    [("ioBroker/ioBroker.hue", ⟨true, "meta"⟩)] [] "ioBroker/ioBroker.hue"
    ⟨true, "meta"⟩ (by decide) (by decide) (by simp)
  exact h

/-! ## C7: the manifest-probe skip for already-valid entries -/

/-- The fields of a raw search-result record consulted by the strict
Match Filter. -/
structure RepoRecord where
  name : String
  full_name : String
deriving Repr, DecidableEq

/-- Embedding of `isLikelyIoBrokerAdapter` (partitioned scanner, lines
554-577).  `hasIoPackage` is the oracle for the `io-package.json`
content probe (`hasIoPackageJson`).  The second component of the
result records whether the probe was invoked, instrumenting the side
effect the claim is about. -/
def isLikelyIoBrokerAdapter (ledger : LedgerMap) (hasIoPackage : String → Bool)
    (repo : RepoRecord) : Bool × Bool :=
  if matchesIoBrokerPattern repo.name = false then
    (false, false)
  else
    match lookupRepo ledger repo.full_name with
    | some existing =>
      if existing.valid then (true, false)
      else (hasIoPackage repo.full_name, true)
    | none => (hasIoPackage repo.full_name, true)

/-- The C7 claim as stated: in the second of two successive scans — in
which `scanForIoBrokerRepositories` has already reset every entry's
`valid` flag via the scan-start invalidation (lines 174-178) — a
record whose ledger entry was `valid = true` after the first scan is
accepted without invoking the manifest probe. -/
def ProbeSkippedAcrossScans : Prop :=
  ∀ (ledger : LedgerMap) (hasIoPackage : String → Bool) (repo : RepoRecord)
    (e : TrackedRepo),
    lookupRepo ledger repo.full_name = some e → e.valid = true →
    matchesIoBrokerPattern repo.name = true →
    (isLikelyIoBrokerAdapter (markAllInvalid ledger) hasIoPackage repo).2 = false

/-- **C7, counterexample.** The scan-start invalidation runs before any
strategy is processed, so at its first observation in the second scan
the entry's flag is already `false` and the probe *is* invoked: with a
one-entry ledger validated by the prior scan, `isLikelyIoBrokerAdapter`
probes `io-package.json` again. -/
theorem c7_counterexample : ¬ ProbeSkippedAcrossScans := by
  intro h
  have hfalse := h [("u/iobroker.hue", ⟨true, ""⟩)] (fun _ => true)
    ⟨"iobroker.hue", "u/iobroker.hue"⟩ ⟨true, ""⟩ (by decide) (by decide) (by decide)
  have htrue : (isLikelyIoBrokerAdapter
      (markAllInvalid [("u/iobroker.hue", ⟨true, ""⟩)]) (fun _ => true)
      ⟨"iobroker.hue", "u/iobroker.hue"⟩).2 = true := by decide
  rw [htrue] at hfalse
  cases hfalse

/-- **C7 (amended).** The probe skip is an *within-scan* optimization:
whenever the in-memory ledger entry for a record currently has
`valid = true` (e.g. because an earlier strategy of the same scan
already re-observed and upserted it), `isLikelyIoBrokerAdapter`
accepts the record without invoking the manifest probe; but across two
successive scans the scan-start invalidation resets the flag, so the
record is re-probed at its first observation of the new scan. -/
theorem c7_probe_skipped_when_valid (ledger : LedgerMap)
    (hasIoPackage : String → Bool) (repo : RepoRecord) (e : TrackedRepo)
    (hlook : lookupRepo ledger repo.full_name = some e) (hvalid : e.valid = true)
    (hname : matchesIoBrokerPattern repo.name = true) :
    isLikelyIoBrokerAdapter ledger hasIoPackage repo = (true, false) := by
  unfold isLikelyIoBrokerAdapter
  rw [hname]
  simp only [Bool.true_eq_false, if_false]
  rw [hlook]
  dsimp only
  simp [hvalid]

/-- Witness for the amended C7: an entry upserted with `valid = true`
earlier in the same scan is accepted without probing. -/
theorem c7_probe_skipped_when_valid_witness :
    isLikelyIoBrokerAdapter [("u/iobroker.hue", ⟨true, ""⟩)] (fun _ => false)
      ⟨"iobroker.hue", "u/iobroker.hue"⟩ = (true, false) :=
  c7_probe_skipped_when_valid [("u/iobroker.hue", ⟨true, ""⟩)] (fun _ => false)
    ⟨"iobroker.hue", "u/iobroker.hue"⟩ ⟨true, ""⟩ (by decide) (by decide) (by decide)

/-! ## C6: fork-chain resolution (`getRootRepository`) -/

/-- A repository object as returned by the repository-detail lookup:
identity, fork flag, and the (possibly absent) nested `parent`
object.  JSON responses are finite trees, so nesting terminates. -/
inductive RepoNode where
  | mk (owner name full_name : String) (fork : Bool) (parent : Option RepoNode)

def RepoNode.owner : RepoNode → String
  | .mk o _ _ _ _ => o

def RepoNode.name : RepoNode → String
  | .mk _ n _ _ _ => n

def RepoNode.full_name : RepoNode → String
  | .mk _ _ f _ _ => f

def RepoNode.fork : RepoNode → Bool
  | .mk _ _ _ fk _ => fk

def RepoNode.parent : RepoNode → Option RepoNode
  | .mk _ _ _ _ p => p

/-- The repository-detail lookup (`octokit.rest.repos.get`) keyed by
owner and name; `none` models a thrown error, which the source's
surrounding `try` converts into a `null` result. -/
def RepoEnv : Type := String → String → Option RepoNode

/-- Result of a fuelled run of the parent-chain walk: `found r` is the
value the source returns (with `found none` the `catch`-path `null`),
`fuelOut` means the `while` loop was still running when the fuel ran
out. -/
inductive RootResult where
  | found (r : Option String)
  | fuelOut
deriving Repr, DecidableEq

/-- The `while (currentRepo.fork && currentRepo.parent)` loop of
`getRootRepository` (lines 474-487), with explicit fuel: each
iteration re-fetches the current repository and follows the nested
`parent` object of the response. -/
def getRootLoop (env : RepoEnv) : RepoNode → Nat → RootResult
  | cur, fuel =>
    if cur.fork && cur.parent.isSome then
      match fuel with
      | 0 => .fuelOut
      | fuel + 1 =>
        match env cur.owner cur.name with
        | none => .found none
        | some parentData =>
          match parentData.parent with
          | none => .found (some parentData.full_name)
          | some p => getRootLoop env p fuel
    else
      .found (some cur.full_name)

/-- Embedding of `getRootRepository` (lines 454-493) with explicit
fuel for the parent-chain `while` loop. -/
def getRootRepository (env : RepoEnv) (repo : RepoNode) (fuel : Nat) : RootResult :=
  if repo.fork = false then
    .found (some repo.full_name)
  else
    match env repo.owner repo.name with
    | none => .found none
    | some repoData =>
      match repoData.parent with
      | none => .found (some repo.full_name)
      | some p => getRootLoop env p fuel

/-- The C6 claim as stated: for every environment — including cyclic or
self-referential parent metadata — the parent-chain walk finishes
within some fuel bound, i.e. never loops indefinitely. -/
def GetRootTerminates : Prop :=
  ∀ (env : RepoEnv) (repo : RepoNode), ∃ fuel,
    getRootRepository env repo fuel ≠ .fuelOut

/-- `getRootRepository` runs out of any amount of fuel on this input:
the `while` loop never exits. -/
def LoopsForever (env : RepoEnv) (repo : RepoNode) : Prop :=
  ∀ fuel, getRootRepository env repo fuel = .fuelOut

/-- A dummy leaf making the nested `parent` field truthy. -/
def dummyNode : RepoNode := .mk "u" "dummy" "u/dummy" false none

/-- Node of repository `u/A` as embedded in responses: a fork whose
nested parent field is present. -/
def nodeA : RepoNode := .mk "u" "A" "u/A" true (some dummyNode)

/-- Node of repository `u/B` as embedded in responses. -/
def nodeB : RepoNode := .mk "u" "B" "u/B" true (some dummyNode)

/-- A cyclic detail environment: the detail lookup of `u/A` names `u/B`
as parent and vice versa, each parent object itself reporting a
parent. -/
def cyclicEnv : RepoEnv := fun _ name =>
  if name = "A" then some (.mk "u" "A" "u/A" true (some nodeB))
  else if name = "B" then some (.mk "u" "B" "u/B" true (some nodeA))
  else none

/-- On the cyclic environment the loop alternates between the two
nodes, consuming one unit of fuel per step and never finishing. -/
theorem getRootLoop_cyclic (fuel : Nat) :
    getRootLoop cyclicEnv nodeA fuel = .fuelOut ∧
    getRootLoop cyclicEnv nodeB fuel = .fuelOut := by
  induction fuel with
  | zero => exact ⟨rfl, rfl⟩
  | succ n ih =>
    constructor
    · show getRootLoop cyclicEnv nodeA (n + 1) = .fuelOut
      rw [getRootLoop]
      exact ih.2
    · show getRootLoop cyclicEnv nodeB (n + 1) = .fuelOut
      rw [getRootLoop]
      exact ih.1

/-- **C6.** `getRootRepository` has no guard against cyclic or
self-referential parent metadata: on the two-node cyclic environment
the walk started at the fork `u/A` consumes any amount of fuel without
terminating, so no bound on the number of parent-chain steps exists
and the traversal loops indefinitely. -/
theorem c6_getRootRepository_cyclic_loops :
    LoopsForever cyclicEnv (.mk "u" "A" "u/A" true none) ∧ ¬ GetRootTerminates := by
  have hloop : LoopsForever cyclicEnv (.mk "u" "A" "u/A" true none) := by
    intro fuel
    show getRootRepository cyclicEnv (.mk "u" "A" "u/A" true none) fuel = .fuelOut
    rw [getRootRepository]
    simp only [RepoNode.fork, Bool.true_eq_false, if_false, RepoNode.owner, RepoNode.name]
    exact (getRootLoop_cyclic fuel).2
  refine ⟨hloop, fun hterm => ?_⟩
  obtain ⟨fuel, hne⟩ := hterm cyclicEnv (.mk "u" "A" "u/A" true none)
  exact hne (hloop fuel)

/-! ## C9: crash behaviour of the ledger save -/

/-- A file-system operation performed by the scanner. -/
inductive FsOp where
  | write (path content : String)
  | rename (src dst : String)
deriving Repr, DecidableEq

/-- The file-system operations of `saveRepositoriesToJson` (line 149,
and identically in each variant): exactly one in-place
`fs.writeFileSync(this.jsonFilePath, JSON.stringify(data, null, 2))` —
no temporary file and no rename.  `doc` stands for the serialized
ledger document. -/
def saveLedgerOps (ledgerPath doc : String) : List FsOp :=
  [.write ledgerPath doc]

/-- The contents the ledger file can be observed to hold if the process
crashes at an arbitrary point while executing a single in-place write:
the previous content (crash before the write), any prefix of the new
document (crash mid-write), or the full document (crash after). -/
def inPlaceWriteCrashContents (old doc : String) : List String :=
  old :: (List.range (doc.length + 1)).map (fun n => ⟨doc.data.take n⟩)

/-- Crash-observable ledger-file contents across the save's operation
list.  `saveLedgerOps` is a single in-place write, so these are the
single-write crash contents. -/
def saveCrashContents (old doc : String) : List String :=
  inPlaceWriteCrashContents old doc

/-- The C9 claim as stated: every save is atomic — at no crash point
does the ledger file hold anything other than the previous content or
the complete new document. -/
def SaveIsAtomic : Prop :=
  ∀ (old doc : String), ∀ c ∈ saveCrashContents old doc, c = old ∨ c = doc

/-- **C9, counterexample.** The save is a direct `fs.writeFileSync`
with no write-then-rename: crashing after one byte of a two-byte
document (previous content empty) leaves the file holding a proper
prefix — neither the old nor the new document. -/
theorem c9_counterexample : ¬ SaveIsAtomic := by
  intro h
  have := h "" "\x7b\x7d" "\x7b" (by decide)
  rcases this with h1 | h1
  · exact absurd h1 (by decide)
  · exact absurd h1 (by decide)

/-- **C9 (amended).** `saveRepositoriesToJson` performs a single
in-place write of the full serialized document to the ledger path,
with no temporary file or rename; an uninterrupted save leaves the
complete document, but a crash mid-write can leave any prefix of it:
every crash-observable content is the old content or a prefix of the
document, every prefix (the complete document included) is
observable, and the operation list contains no rename. -/
theorem c9_save_single_write_not_atomic (ledgerPath old doc : String) :
    saveLedgerOps ledgerPath doc = [.write ledgerPath doc] ∧
    (∀ s d, FsOp.rename s d ∉ saveLedgerOps ledgerPath doc) ∧
    doc ∈ saveCrashContents old doc ∧
    (∀ n, n ≤ doc.length → (⟨doc.data.take n⟩ : String) ∈ saveCrashContents old doc) ∧
    (∀ c ∈ saveCrashContents old doc, c = old ∨ c.data <+: doc.data) := by
  refine ⟨rfl, ?_, ?_, ?_, ?_⟩
  · intro s d hmem
    unfold saveLedgerOps at hmem
    rw [List.mem_singleton] at hmem
    cases hmem
  · have : (⟨doc.data.take doc.length⟩ : String) ∈ saveCrashContents old doc := by
      unfold saveCrashContents inPlaceWriteCrashContents
      refine List.mem_cons_of_mem _ (List.mem_map.mpr ⟨doc.length, ?_, rfl⟩)
      rw [List.mem_range]
      omega
    rw [show doc.data.take doc.length = doc.data from List.take_length doc.data] at this
    exact this
  · intro n hn
    unfold saveCrashContents inPlaceWriteCrashContents
    refine List.mem_cons_of_mem _ (List.mem_map.mpr ⟨n, ?_, rfl⟩)
    rw [List.mem_range]
    omega
  · intro c hc
    unfold saveCrashContents inPlaceWriteCrashContents at hc
    rcases List.mem_cons.mp hc with h | h
    · exact Or.inl h
    · right
      obtain ⟨n, _, rfl⟩ := List.mem_map.mp h
      exact List.take_prefix n doc.data

end WatchGithub
